import Mathlib

/-!
Verification of the layout-rematerialization and loop-hoisting utilities
declared in `lib/Dialect/TritonGPU/Transforms/Utility.h`.  The repository
contains only the header; every function body is therefore modelled from the
specification (each such definition's doc comment says so).  Signature facts
(parameter lists, return types) are transcribed from the header itself.
-/

set_option autoImplicit false

/-- Encodings (the `Attribute` layout attributes of the source) are abstract
values compared only for equality; we model them as natural numbers. -/
abbrev Encoding := Nat

/-- A `Value` is produced by exactly one operation result or is a block
argument (loop-carried or function argument). -/
inductive Value where
  | opResult (op : Nat) (idx : Nat)
  | blockArg (idx : Nat)
deriving DecidableEq

/-- An operation: kind tag, ordered operand edges, and the encoding carried by
its (single, modelled) result. -/
structure Op where
  kind : Nat
  operands : List Value
  resultEnc : Encoding
deriving DecidableEq

/-- The operation graph: an arena of operations with stable indices, plus the
encodings of the surrounding block arguments. -/
structure Graph where
  ops : List Op
  argEncodings : List Encoding
deriving DecidableEq

/-- Modelled from the spec (§9): the per-operation-kind rule table of the
registry — encoding inversion, the two cost predicates, result-type
inference, and commutation with layout conversions. -/
structure KindRules where
  invert : Encoding → Option Encoding
  isExpensiveLoadOrStore : Encoding → Bool
  isExpensiveToRemat : Encoding → Bool
  inferResult : List Encoding → Encoding
  commutesWithConversion : Encoding → Bool

/-- Registry mapping an operation-kind tag to its rules. -/
abbrev Registry := Nat → KindRules

/-- Modelled from the spec (§4.1): `invertEncoding` is declared in Utility.h
but not defined under src/.  Given that `op`'s result must carry
`targetEncoding`, it computes the encoding required on `op`'s operands, or
fails (`none`) when `op`'s kind has no inversion rule. -/
def invertEncoding (R : Registry) (targetEncoding : Encoding) (op : Op) :
    Option Encoding :=
  (R op.kind).invert targetEncoding

/-- Modelled from the spec (§4.2): true when adopting `targetEncoding` would
make a memory access non-coalesced.  Declared in Utility.h, body missing. -/
def expensiveLoadOrStore (R : Registry) (op : Op) (targetEncoding : Encoding) :
    Bool :=
  (R op.kind).isExpensiveLoadOrStore targetEncoding

/-- Modelled from the spec (§4.2): the traversal-stopping cost predicate of
the backward rematerializer.  Declared in Utility.h, body missing. -/
def expensiveToRemat (R : Registry) (op : Op) (targetEncoding : Encoding) :
    Bool :=
  (R op.kind).isExpensiveToRemat targetEncoding

/-- Encoding carried by a `Value` in a graph, when it exists. -/
def valueEnc (g : Graph) : Value → Option Encoding
  | Value.opResult i _ => g.ops[i]?.map Op.resultEnc
  | Value.blockArg i => g.argEncodings[i]?

/-- Defining operation (index and node) of a `Value`; `none` for block
arguments and for results of operations outside the arena. -/
def definingOp (g : Graph) : Value → Option (Nat × Op)
  | Value.opResult i _ =>
    match g.ops[i]? with
    | some op => some (i, op)
    | none => none
  | Value.blockArg _ => none

/-- First-match lookup in the ordered `toConvert` map. -/
def lookupEnc : List (Value × Encoding) → Value → Option Encoding
  | [], _ => none
  | (w, e) :: rest, v => if w = v then some e else lookupEnc rest v

/-- Ordered-set insertion (models `SetVector::insert`). -/
def insertDedup {α : Type} [DecidableEq α] (l : List α) (a : α) : List α :=
  if a ∈ l then l else l ++ [a]

/-- A rematerialization plan: `processed` (ordered set of operation indices
slated for cloning), `layout` (ordered set of distinct encodings touched),
`toConvert` (ordered map from Value to the encoding it must carry). -/
structure Plan where
  processed : List Nat
  layout : List Encoding
  toConvert : List (Value × Encoding)
deriving DecidableEq

/-- Failure taxonomy of the backward traversal (spec §7). -/
inductive RematError where
  | conflict
  | blockArgBoundary
  | expensiveOp
  | noInversion
  | invalidSeed
  | outOfFuel
deriving DecidableEq

/-- Modelled from the spec (§4.3, step 6): record each operand of a processed
operation in `toConvert` with its required encoding and push it onto the
worklist; an operand already recorded with an equal encoding is skipped, one
recorded with a conflicting encoding fails the whole traversal (steps 1–2). -/
def pushOperands :
    List Value → Encoding → List (Value × Encoding) → List (Value × Encoding) →
    Except RematError (List (Value × Encoding) × List (Value × Encoding))
  | [], _, work, tc => .ok (work, tc)
  | v :: vs, e, work, tc =>
    match lookupEnc tc v with
    | some e' => if e' = e then pushOperands vs e work tc else .error .conflict
    | none => pushOperands vs e (work ++ [(v, e)]) (tc ++ [(v, e)])

/-- Modelled from the spec (§4.3): the worklist loop of
`simulateBackwardRematerialization`.  For each visited value: fail at a
region-entry boundary (step 3), fail on an `expensiveToRemat` definer
(step 4), fail when the definer's kind has no inversion rule (step 5), and
otherwise record the definer and propagate to its operands (step 6).  `fuel`
bounds the number of iterations; exhausting it is reported as a failure,
which is conservative. -/
def simLoop (R : Registry) (g : Graph) :
    Nat → List (Value × Encoding) → Plan → Except RematError Plan
  | 0, _, _ => .error .outOfFuel
  | _ + 1, [], st => .ok st
  | fuel + 1, (v, e) :: rest, st =>
    match definingOp g v with
    | none => .error .blockArgBoundary
    | some (d, dOp) =>
      if expensiveToRemat R dOp e then .error .expensiveOp
      else
        match invertEncoding R e dOp with
        | none => .error .noInversion
        | some e' =>
          match pushOperands dOp.operands e' rest st.toConvert with
          | .error err => .error err
          | .ok (work', tc') =>
            simLoop R g fuel work'
              { processed := insertDedup st.processed d
                layout := insertDedup st.layout e
                toConvert := tc' }

/-- Total number of operand edges in a graph. -/
def totalOperands (g : Graph) : Nat :=
  (g.ops.map (fun o => o.operands.length)).sum

/-- Fuel bound used by the top-level simulation: each value enters the
worklist at most once, so this bound is generous. -/
def simFuel (g : Graph) : Nat :=
  totalOperands g + g.ops.length + 1

/-- Modelled from the spec (§4.3): `simulateBackwardRematerialization` is
declared in Utility.h (lines 21–24) but its body is missing from src/.  Per
the header comment the worklist is seeded with the operands of `initOp` only
(the declared signature carries no `skipInit` flag).  On success it returns
the plan together with the cost `processed.size()`. -/
def simulateBackwardRematerialization (R : Registry) (g : Graph)
    (initOp : Nat) (targetEncoding : Encoding) :
    Except RematError (Plan × Nat) :=
  match g.ops[initOp]? with
  | none => .error .invalidSeed
  | some op =>
    match pushOperands op.operands targetEncoding [] [] with
    | .error err => .error err
    | .ok (work, tc) =>
      match simLoop R g (simFuel g) work
          { processed := [], layout := [], toConvert := tc } with
      | .error err => .error err
      | .ok plan => .ok (plan, plan.processed.length)

/-- Remap a value through the clone mapping, falling back to the original
value when unmapped (spec §4.4). -/
def remapValue (m : List (Value × Value)) (v : Value) : Value :=
  match m.lookup v with
  | some w => w
  | none => v

/-- Modelled from the spec (§4.4): `cloneWithInferType` is declared in
Utility.h but not defined under src/.  It duplicates the operation at index
`i` with operands remapped through `mapping` and its result encoding
re-inferred from the new operand encodings, appends the clone to the arena,
and extends the mapping with original-result ↦ clone-result.  `none` only
when `i` is not in the arena (impossible for plans produced by a successful
simulation). -/
def cloneWithInferType (R : Registry) (g : Graph) (i : Nat)
    (mapping : List (Value × Value)) :
    Option (Graph × List (Value × Value) × Nat) :=
  match g.ops[i]? with
  | none => none
  | some op =>
    let newOperands := op.operands.map (remapValue mapping)
    let newEnc := (R op.kind).inferResult (newOperands.filterMap (valueEnc g))
    let newIdx := g.ops.length
    some
      ({ ops := g.ops ++ [{ kind := op.kind, operands := newOperands,
                            resultEnc := newEnc }]
         argEncodings := g.argEncodings },
       mapping ++ [(Value.opResult i 0, Value.opResult newIdx 0)],
       newIdx)

/-- Worker of the chain rematerializer: clones every planned operation in the
recorded order, threading the graph and the value mapping, and collects the
indices of the created clones. -/
def rematChainGo (R : Registry) :
    List Nat → Graph → List (Value × Value) → List Nat →
    Graph × List (Value × Value) × List Nat
  | [], g, m, cloned => (g, m, cloned)
  | i :: is, g, m, cloned =>
    match cloneWithInferType R g i m with
    | none => rematChainGo R is g m cloned
    | some (g', m', idx) => rematChainGo R is g' m' (cloned ++ [idx])

/-- Modelled from the spec (§4.5): `rematerializeConversionChain` is declared
in Utility.h (lines 29–32, returning `void`) but its body is missing from
src/.  It processes `processed` in recorded order, cloning each operation via
`cloneWithInferType` and populating `mapping` as it goes; it returns the new
graph, the final mapping, and the list of clones created. -/
def rematerializeConversionChain (R : Registry) (g : Graph)
    (toConvert : List (Value × Encoding)) (processed : List Nat)
    (mapping : List (Value × Value)) :
    Graph × List (Value × Value) × List Nat :=
  rematChainGo R processed g mapping []

/-- A caller-side driver combining the two phases: compute a plan, and only
on success apply it; on failure the graph is returned untouched (spec §6 and
§9: plan computation is read-only, plan application is the only mutating
phase). -/
def applyBackwardRematerialization (R : Registry) (g : Graph) (initOp : Nat)
    (targetEncoding : Encoding) : Graph :=
  match simulateBackwardRematerialization R g initOp targetEncoding with
  | .error _ => g
  | .ok (plan, _) =>
    (rematerializeConversionChain R g plan.toConvert plan.processed []).1

/-- State-threaded embedding of `invertEncoding` applied to an operation of a
graph: the graph component of the result is the graph after the call, the
second component models the `LogicalResult` plus the out-parameter `ret`. -/
def invertEncodingOnGraph (R : Registry) (g : Graph)
    (targetEncoding : Encoding) (i : Nat) : Graph × Option Encoding :=
  (g, g.ops[i]?.bind (fun op => invertEncoding R targetEncoding op))

/-- Values reachable from the seed operation by operand edges without
crossing an operation flagged `expensiveToRemat`, together with the encoding
each such value is required to carry (spec §3, invariants; §8, no false
cones).  The base case is the seeding of the worklist with the seed's
operands at the target encoding; the step follows one inversion through a
non-expensive defining operation. -/
inductive ConeReach (R : Registry) (g : Graph) (seedOp : Op)
    (targetEncoding : Encoding) : Value → Encoding → Prop where
  | seedOperand (v : Value) (hv : v ∈ seedOp.operands) :
      ConeReach R g seedOp targetEncoding v targetEncoding
  | step (v : Value) (e : Encoding) (d : Nat) (dOp : Op) (e' : Encoding)
      (o : Value)
      (hreach : ConeReach R g seedOp targetEncoding v e)
      (hdef : definingOp g v = some (d, dOp))
      (hexp : expensiveToRemat R dOp e = false)
      (hinv : invertEncoding R e dOp = some e')
      (ho : o ∈ dOp.operands) :
      ConeReach R g seedOp targetEncoding o e'

/-- A value type: element type plus encoding.  Two values with different
encodings but identical element type are convertible (spec §3). -/
structure VType where
  elemTy : Nat
  enc : Encoding
deriving DecidableEq

/-- A loop region, reduced to what `fixupLoops` inspects: the types of its
entry block arguments and the types of the corresponding back-edge (yield)
operands. -/
structure LoopInfo where
  argTypes : List VType
  yieldTypes : List VType
deriving DecidableEq

/-- Modelled from the spec (§4.6): repair of a single loop-carried position.
A matching pair is kept; a pair with matching element type but mismatched
encoding gets a conversion inserted at the back-edge, making the yield type
equal the entry-argument type; anything else is a pass-fatal residual
mismatch. -/
def fixupPair (a y : VType) : Option (VType × Nat) :=
  if a = y then some (y, 0)
  else if a.elemTy = y.elemTy then some (a, 1)
  else none

/-- Repair all back-edge operand types of one loop against its entry-argument
types, counting inserted conversions; fails on arity or element-type
mismatch. -/
def fixupYield : List VType → List VType → Option (List VType × Nat)
  | [], [] => some ([], 0)
  | a :: as, y :: ys =>
    match fixupPair a y, fixupYield as ys with
    | some (y', k), some (ys', n) => some (y' :: ys', k + n)
    | _, _ => none
  | _, _ => none

/-- Repair one loop: only the yield (back-edge) types are rewritten, the
entry-argument types are never touched. -/
def fixupLoop (l : LoopInfo) : Option (LoopInfo × Nat) :=
  match fixupYield l.argTypes l.yieldTypes with
  | some (ys, n) => some ({ argTypes := l.argTypes, yieldTypes := ys }, n)
  | none => none

/-- Modelled from the spec (§4.6): `fixupLoops` is declared in Utility.h
(line 9) but its body is missing from src/.  It sweeps every loop of the
module, inserting at the back-edge the minimal conversions needed to restore
the entry-type/back-edge-type invariant, and reports failure when a residual
mismatch cannot be repaired by a conversion.  The returned number counts the
inserted conversions. -/
def fixupLoops : List LoopInfo → Option (List LoopInfo × Nat)
  | [] => some ([], 0)
  | l :: ls =>
    match fixupLoop l, fixupLoops ls with
    | some (l', k), some (ls', n) => some (l' :: ls', k + n)
    | _, _ => none

/-- Failure taxonomy of the loop hoister (spec §7). -/
inductive HoistFailure where
  | missingEntryConversion
  | nonCommutingOp (kind : Nat)
deriving DecidableEq

/-- What `canMoveOutOfLoop` inspects for one loop-carried block argument: the
target encoding of the interior conversion, the conversion applied to the
argument's initial value on loop entry (if any), the kinds of the operations
between the argument's use and the yield, and the interior conversion
operations that hoisting would remove (the `cvts` out-parameter). -/
structure LoopConvQuery where
  targetEncoding : Encoding
  entryConversion : Option Encoding
  bodyKinds : List Nat
  cvts : List Nat
deriving DecidableEq

/-- Scan the operations between the argument's use and the yield, failing at
the first kind for which no commutation with the conversion is established
(spec §4.6). -/
def checkCommutation (R : Registry) (e : Encoding) :
    List Nat → Except HoistFailure Unit
  | [] => .ok ()
  | k :: ks =>
    if (R k).commutesWithConversion e then checkCommutation R e ks
    else .error (.nonCommutingOp k)

/-- Modelled from the spec (§4.6): `canMoveOutOfLoop` is declared in
Utility.h (lines 34–35) but its body is missing from src/.  It succeeds, and
returns the interior conversions to remove, exactly when the same conversion
is applied to the argument's initial value on loop entry and the conversion
commutes with every operation between the argument's use and the yield. -/
def canMoveOutOfLoop (R : Registry) (q : LoopConvQuery) :
    Except HoistFailure (List Nat) :=
  if q.entryConversion = some q.targetEncoding then
    match checkCommutation R q.targetEncoding q.bodyKinds with
    | .ok _ => .ok q.cvts
    | .error err => .error err
  else .error .missingEntryConversion

/-- A C++ declaration, reduced to the facts transcribed from the header. -/
structure CppDecl where
  declName : String
  returnType : String
  params : List String
deriving DecidableEq

/-- The declaration of `simulateBackwardRematerialization` at Utility.h lines
21–24: return type `int` and exactly five parameters. -/
def simulateBackwardRematerializationDecl : CppDecl :=
  { declName := "simulateBackwardRematerialization"
    returnType := "int"
    params := ["initOp", "processed", "layout", "toConvert", "targetEncoding"] }

/-- The declaration of `rematerializeConversionChain` at Utility.h lines
29–32: return type `void` and four parameters. -/
def rematerializeConversionChainDecl : CppDecl :=
  { declName := "rematerializeConversionChain"
    returnType := "void"
    params := ["toConvert", "rewriter", "processed", "mapping"] }

/-- Example rule table: identity inversion, nothing expensive, everything
commutes. -/
def exRules : KindRules :=
  { invert := fun e => some e
    isExpensiveLoadOrStore := fun _ => false
    isExpensiveToRemat := fun _ => false
    inferResult := fun l => l.headD 0
    commutesWithConversion := fun _ => true }

/-- Example registry assigning `exRules` to every kind. -/
def exReg : Registry := fun _ => exRules

/-- Example operation consuming the result of operation 1. -/
def exOp0 : Op :=
  { kind := 0, operands := [Value.opResult 1 0], resultEnc := 0 }

/-- Example operation with no operands. -/
def exOp1 : Op :=
  { kind := 0, operands := [], resultEnc := 0 }

/-- Example graph: operation 0 consumes the result of operation 1. -/
def exG : Graph :=
  { ops := [exOp0, exOp1], argEncodings := [] }

/-- Example graph whose seed operand is a block argument, so simulation fails
at the region boundary. -/
def exGFail : Graph :=
  { ops := [{ kind := 0, operands := [Value.blockArg 0], resultEnc := 0 }]
    argEncodings := [0] }

/-- The plan computed for `exG` from seed 0 with target encoding 5. -/
def exPlan : Plan :=
  { processed := [1], layout := [5], toConvert := [(Value.opResult 1 0, 5)] }

/-- A mid-traversal plan state recording the operand of `exOp0` with encoding
1, used to exhibit a conflict. -/
def exStConflict : Plan :=
  { processed := [], layout := [], toConvert := [(Value.opResult 1 0, 1)] }

/-- Example module with one loop whose single carried position has matching
element type but mismatched encoding. -/
def exLoop : LoopInfo :=
  { argTypes := [{ elemTy := 0, enc := 1 }]
    yieldTypes := [{ elemTy := 0, enc := 2 }] }

/-- The repaired version of `exLoop`. -/
def exLoopFixed : LoopInfo :=
  { argTypes := [{ elemTy := 0, enc := 1 }]
    yieldTypes := [{ elemTy := 0, enc := 1 }] }

/-! Helper lemmas about the traversal structures. -/

theorem lookupEnc_append_of_some (tc l : List (Value × Encoding)) (v : Value)
    (e : Encoding) (h : lookupEnc tc v = some e) :
    lookupEnc (tc ++ l) v = some e := by
  induction tc with
  | nil => simp [lookupEnc] at h
  | cons p rest ih =>
    obtain ⟨w, e₁⟩ := p
    by_cases hw : w = v
    · simpa [lookupEnc, hw] using h
    · simp only [List.cons_append, lookupEnc, if_neg hw] at h ⊢
      exact ih h

theorem pushOperands_conflict :
    ∀ (vs : List Value) (e : Encoding) (work tc : List (Value × Encoding))
      (o : Value) (e'' : Encoding), o ∈ vs → lookupEnc tc o = some e'' →
      e'' ≠ e → pushOperands vs e work tc = .error RematError.conflict := by
  intro vs
  induction vs with
  | nil =>
    intro e work tc o e'' ho _ _
    cases ho
  | cons v vs ih =>
    intro e work tc o e'' ho hrec hne
    rcases List.mem_cons.mp ho with rfl | ho'
    · simp only [pushOperands, hrec, if_neg hne]
    · cases hl : lookupEnc tc v with
      | some e₁ =>
        by_cases he : e₁ = e
        · simp only [pushOperands, hl, if_pos he]
          exact ih e work tc o e'' ho' hrec hne
        · simp only [pushOperands, hl, if_neg he]
      | none =>
        simp only [pushOperands, hl]
        exact ih e (work ++ [(v, e)]) (tc ++ [(v, e)]) o e'' ho'
          (lookupEnc_append_of_some tc [(v, e)] o e'' hrec) hne

theorem pushOperands_pred (P : Value → Encoding → Prop) :
    ∀ (vs : List Value) (e : Encoding)
      (work tc work' tc' : List (Value × Encoding)),
      pushOperands vs e work tc = .ok (work', tc') →
      (∀ p ∈ tc, P p.1 p.2) → (∀ p ∈ work, P p.1 p.2) →
      (∀ v ∈ vs, P v e) →
      (∀ p ∈ work', P p.1 p.2) ∧ (∀ p ∈ tc', P p.1 p.2) := by
  intro vs
  induction vs with
  | nil =>
    intro e work tc work' tc' h htc hw _
    simp only [pushOperands, Except.ok.injEq, Prod.mk.injEq] at h
    obtain ⟨rfl, rfl⟩ := h
    exact ⟨hw, htc⟩
  | cons v vs ih =>
    intro e work tc work' tc' h htc hw hvs
    cases hl : lookupEnc tc v with
    | some e₁ =>
      by_cases he : e₁ = e
      · simp only [pushOperands, hl, if_pos he] at h
        exact ih e work tc work' tc' h htc hw
          (fun u hu => hvs u (List.mem_cons_of_mem _ hu))
      · simp [pushOperands, hl, if_neg he] at h
    | none =>
      simp only [pushOperands, hl] at h
      refine ih e (work ++ [(v, e)]) (tc ++ [(v, e)]) work' tc' h ?_ ?_ ?_
      · intro p hp
        rcases List.mem_append.mp hp with hp' | hp'
        · exact htc p hp'
        · have hpv : p = (v, e) := by simpa using hp'
          subst hpv
          exact hvs v (List.mem_cons_self v vs)
      · intro p hp
        rcases List.mem_append.mp hp with hp' | hp'
        · exact hw p hp'
        · have hpv : p = (v, e) := by simpa using hp'
          subst hpv
          exact hvs v (List.mem_cons_self v vs)
      · intro u hu
        exact hvs u (List.mem_cons_of_mem _ hu)

theorem mem_insertDedup {α : Type} [DecidableEq α] (l : List α) (a b : α)
    (h : b ∈ insertDedup l a) : b ∈ l ∨ b = a := by
  unfold insertDedup at h
  split at h
  · exact Or.inl h
  · rcases List.mem_append.mp h with h' | h'
    · exact Or.inl h'
    · right
      simpa using h'

theorem definingOp_lt (g : Graph) (v : Value) (d : Nat) (dOp : Op)
    (h : definingOp g v = some (d, dOp)) : d < g.ops.length := by
  cases v with
  | opResult i j =>
    simp only [definingOp] at h
    cases hg : g.ops[i]? with
    | none => simp [hg] at h
    | some op =>
      simp only [hg, Option.some.injEq, Prod.mk.injEq] at h
      obtain ⟨rfl, rfl⟩ := h
      obtain ⟨hlt, -⟩ := List.getElem?_eq_some_iff.mp hg
      exact hlt
  | blockArg i => simp [definingOp] at h

theorem simLoop_pred (P : Value → Encoding → Prop) (R : Registry) (g : Graph)
    (hstep : ∀ (v : Value) (e : Encoding) (d : Nat) (dOp : Op) (e' : Encoding)
      (o : Value), P v e → definingOp g v = some (d, dOp) →
      expensiveToRemat R dOp e = false → invertEncoding R e dOp = some e' →
      o ∈ dOp.operands → P o e') :
    ∀ (fuel : Nat) (work : List (Value × Encoding)) (st plan : Plan),
      simLoop R g fuel work st = .ok plan →
      (∀ p ∈ st.toConvert, P p.1 p.2) → (∀ p ∈ work, P p.1 p.2) →
      ∀ p ∈ plan.toConvert, P p.1 p.2 := by
  intro fuel
  induction fuel with
  | zero =>
    intro work st plan h
    simp [simLoop] at h
  | succ fuel ih =>
    intro work st plan h htc hw
    cases work with
    | nil =>
      simp only [simLoop, Except.ok.injEq] at h
      subst h
      exact htc
    | cons p rest =>
      obtain ⟨v, e⟩ := p
      simp only [simLoop] at h
      split at h
      · simp at h
      · rename_i d dOp hdef
        split at h
        · simp at h
        · rename_i hexp
          split at h
          · simp at h
          · rename_i e' hinv
            split at h
            · simp at h
            · rename_i work' tc' hpush
              have hPv : P v e := hw (v, e) (List.mem_cons_self _ _)
              have hops : ∀ u ∈ dOp.operands, P u e' := fun u hu =>
                hstep v e d dOp e' u hPv hdef (by simpa using hexp) hinv hu
              obtain ⟨hw', htc'⟩ := pushOperands_pred P dOp.operands e' rest
                st.toConvert work' tc' hpush htc
                (fun q hq => hw q (List.mem_cons_of_mem _ hq)) hops
              exact ih work' _ plan h htc' hw'

theorem simLoop_processed_lt (R : Registry) (g : Graph) :
    ∀ (fuel : Nat) (work : List (Value × Encoding)) (st plan : Plan),
      simLoop R g fuel work st = .ok plan →
      (∀ d ∈ st.processed, d < g.ops.length) →
      ∀ d ∈ plan.processed, d < g.ops.length := by
  intro fuel
  induction fuel with
  | zero =>
    intro work st plan h
    simp [simLoop] at h
  | succ fuel ih =>
    intro work st plan h hp
    cases work with
    | nil =>
      simp only [simLoop, Except.ok.injEq] at h
      subst h
      exact hp
    | cons q rest =>
      obtain ⟨v, e⟩ := q
      simp only [simLoop] at h
      split at h
      · simp at h
      · rename_i d dOp hdef
        split at h
        · simp at h
        · split at h
          · simp at h
          · rename_i e' hinv
            split at h
            · simp at h
            · rename_i work' tc' hpush
              refine ih work' _ plan h ?_
              intro d' hd'
              rcases mem_insertDedup st.processed d d' hd' with h' | rfl
              · exact hp d' h'
              · exact definingOp_lt g v _ dOp hdef

theorem rematChainGo_count (R : Registry) :
    ∀ (is : List Nat) (g : Graph) (m : List (Value × Value))
      (cloned : List Nat), (∀ i ∈ is, i < g.ops.length) →
      (rematChainGo R is g m cloned).2.2.length = cloned.length + is.length := by
  intro is
  induction is with
  | nil =>
    intro g m cloned _
    simp [rematChainGo]
  | cons i is ih =>
    intro g m cloned hvalid
    have hi : i < g.ops.length := hvalid i (List.mem_cons_self _ _)
    simp only [rematChainGo, cloneWithInferType, List.getElem?_eq_getElem hi]
    rw [ih _ _ _ (fun j hj => by
      have hj' := hvalid j (List.mem_cons_of_mem _ hj)
      simp only [List.length_append, List.length_cons, List.length_nil]
      omega)]
    simp only [List.length_append, List.length_cons, List.length_nil]
    omega

theorem fixupPair_eq (a y y' : VType) (k : Nat)
    (h : fixupPair a y = some (y', k)) : y' = a := by
  unfold fixupPair at h
  split at h
  · rename_i hay
    simp only [Option.some.injEq, Prod.mk.injEq] at h
    obtain ⟨rfl, rfl⟩ := h
    exact hay.symm
  · split at h
    · simp only [Option.some.injEq, Prod.mk.injEq] at h
      obtain ⟨h1, -⟩ := h
      exact h1.symm
    · simp at h

theorem fixupPair_self (a : VType) : fixupPair a a = some (a, 0) := by
  simp [fixupPair]

theorem fixupYield_eq :
    ∀ (as ys ys' : List VType) (n : Nat),
      fixupYield as ys = some (ys', n) → ys' = as := by
  intro as
  induction as with
  | nil =>
    intro ys ys' n h
    cases ys with
    | nil =>
      simp only [fixupYield, Option.some.injEq, Prod.mk.injEq] at h
      exact h.1.symm
    | cons y ys => simp [fixupYield] at h
  | cons a as ih =>
    intro ys ys' n h
    cases ys with
    | nil => simp [fixupYield] at h
    | cons y ys =>
      simp only [fixupYield] at h
      cases hp : fixupPair a y with
      | none => rw [hp] at h; simp at h
      | some p =>
        obtain ⟨y₁, k⟩ := p
        cases hy : fixupYield as ys with
        | none => rw [hp, hy] at h; simp at h
        | some q =>
          obtain ⟨ys₁, n₁⟩ := q
          rw [hp, hy] at h
          simp only [Option.some.injEq, Prod.mk.injEq] at h
          obtain ⟨rfl, -⟩ := h
          rw [fixupPair_eq a y y₁ k hp, ih ys ys₁ n₁ hy]

theorem fixupYield_self : ∀ as : List VType, fixupYield as as = some (as, 0) := by
  intro as
  induction as with
  | nil => rfl
  | cons a as ih => simp [fixupYield, fixupPair_self, ih]

theorem fixupLoop_ok (l l' : LoopInfo) (k : Nat)
    (h : fixupLoop l = some (l', k)) :
    l'.argTypes = l.argTypes ∧ l'.yieldTypes = l.argTypes := by
  unfold fixupLoop at h
  cases hy : fixupYield l.argTypes l.yieldTypes with
  | none => rw [hy] at h; simp at h
  | some p =>
    obtain ⟨ys, n⟩ := p
    rw [hy] at h
    simp only [Option.some.injEq, Prod.mk.injEq] at h
    obtain ⟨h1, -⟩ := h
    subst h1
    exact ⟨rfl, fixupYield_eq l.argTypes l.yieldTypes ys n hy⟩

theorem fixupLoop_self (l : LoopInfo) (h : l.argTypes = l.yieldTypes) :
    fixupLoop l = some (l, 0) := by
  obtain ⟨as, ys⟩ := l
  simp only at h
  subst h
  simp [fixupLoop, fixupYield_self]

theorem fixupLoops_ok :
    ∀ (m m' : List LoopInfo) (n : Nat), fixupLoops m = some (m', n) →
      (∀ l' ∈ m', l'.argTypes = l'.yieldTypes) ∧
        m'.map LoopInfo.argTypes = m.map LoopInfo.argTypes := by
  intro m
  induction m with
  | nil =>
    intro m' n h
    simp only [fixupLoops, Option.some.injEq, Prod.mk.injEq] at h
    obtain ⟨rfl, -⟩ := h
    exact ⟨fun l' hl' => absurd hl' (List.not_mem_nil l'), rfl⟩
  | cons l ls ih =>
    intro m' n h
    simp only [fixupLoops] at h
    cases hl : fixupLoop l with
    | none => rw [hl] at h; simp at h
    | some p =>
      obtain ⟨l₁, k⟩ := p
      cases hls : fixupLoops ls with
      | none => rw [hl, hls] at h; simp at h
      | some q =>
        obtain ⟨ls₁, n₁⟩ := q
        rw [hl, hls] at h
        simp only [Option.some.injEq, Prod.mk.injEq] at h
        obtain ⟨rfl, -⟩ := h
        obtain ⟨hargs, hyield⟩ := fixupLoop_ok l l₁ k hl
        obtain ⟨hall, hmap⟩ := ih ls₁ n₁ hls
        constructor
        · intro l' hl'
          rcases List.mem_cons.mp hl' with rfl | hl''
          · rw [hargs, hyield]
          · exact hall l' hl''
        · simp only [List.map_cons]
          rw [hargs, hmap]

theorem fixupLoops_self :
    ∀ m : List LoopInfo, (∀ l ∈ m, l.argTypes = l.yieldTypes) →
      fixupLoops m = some (m, 0) := by
  intro m
  induction m with
  | nil =>
    intro _
    rfl
  | cons l ls ih =>
    intro hall
    simp only [fixupLoops]
    rw [fixupLoop_self l (hall l (List.mem_cons_self l ls)),
      ih (fun u hu => hall u (List.mem_cons_of_mem _ hu))]

theorem checkCommutation_ok (R : Registry) (e : Encoding) :
    ∀ ks : List Nat, checkCommutation R e ks = .ok () ↔
      ∀ k ∈ ks, (R k).commutesWithConversion e = true := by
  intro ks
  induction ks with
  | nil => simp [checkCommutation]
  | cons k ks ih =>
    by_cases hk : (R k).commutesWithConversion e = true
    · simp [checkCommutation, hk, ih, List.forall_mem_cons]
    · have hk' : (R k).commutesWithConversion e = false := by simpa using hk
      simp [checkCommutation, hk', List.forall_mem_cons]

/-! Claim theorems. -/

/-- C1: for every rematerialization plan produced by a successful
`simulateBackwardRematerialization`, the returned cost equals
`processed.size()`, and equals the number of operations that a subsequent
`rematerializeConversionChain` call applying the same plan actually
clones. -/
theorem claim1_cost_consistency (R : Registry) (g : Graph) (initOp : Nat)
    (t : Encoding) (plan : Plan) (c : Nat)
    (h : simulateBackwardRematerialization R g initOp t = .ok (plan, c)) :
    c = plan.processed.length ∧
      (rematerializeConversionChain R g plan.toConvert plan.processed
          []).2.2.length = plan.processed.length := by
  unfold simulateBackwardRematerialization at h
  split at h
  · simp at h
  · rename_i op hseed
    split at h
    · simp at h
    · rename_i work0 tc0 hpush
      split at h
      · simp at h
      · rename_i st hloop
        simp only [Except.ok.injEq, Prod.mk.injEq] at h
        obtain ⟨rfl, rfl⟩ := h
        refine ⟨rfl, ?_⟩
        have hvalid : ∀ d ∈ st.processed, d < g.ops.length :=
          simLoop_processed_lt R g (simFuel g) work0 _ st hloop (by simp)
        unfold rematerializeConversionChain
        have hc := rematChainGo_count R st.processed g [] [] hvalid
        simpa using hc

/-- C2: when `simulateBackwardRematerialization` returns failure, the live
operation graph is unchanged: the planning phase only populates the
ephemeral plan structures and the driver commits nothing on failure. -/
theorem claim2_failure_leaves_graph_unchanged (R : Registry) (g : Graph)
    (initOp : Nat) (t : Encoding) (err : RematError)
    (h : simulateBackwardRematerialization R g initOp t = .error err) :
    applyBackwardRematerialization R g initOp t = g := by
  unfold applyBackwardRematerialization
  rw [h]

/-- C3: when the traversal requires an operand at an encoding different from
the one already recorded for it in `toConvert` (two sibling consumers of one
value through the same producer), the simulation loop fails with a conflict
rather than recording either encoding. -/
theorem claim3_conflict_fails (R : Registry) (g : Graph) (fuel : Nat)
    (v : Value) (e : Encoding) (rest : List (Value × Encoding)) (st : Plan)
    (d : Nat) (dOp : Op) (e' : Encoding) (o : Value) (e'' : Encoding)
    (hdef : definingOp g v = some (d, dOp))
    (hexp : expensiveToRemat R dOp e = false)
    (hinv : invertEncoding R e dOp = some e')
    (ho : o ∈ dOp.operands)
    (hrec : lookupEnc st.toConvert o = some e'')
    (hne : e'' ≠ e') :
    simLoop R g (fuel + 1) ((v, e) :: rest) st =
      .error RematError.conflict := by
  have hpush := pushOperands_conflict dOp.operands e' rest st.toConvert
    o e'' ho hrec hne
  simp [simLoop, hdef, hexp, hinv, hpush]

/-- C4: every value in the `toConvert` map of a successful simulation is
reachable from the seed operation by operand edges without passing through
any operation for which `expensiveToRemat` is true (formalized by
`ConeReach`). -/
theorem claim4_no_false_cones (R : Registry) (g : Graph) (initOp : Nat)
    (t : Encoding) (plan : Plan) (c : Nat) (seedOp : Op)
    (hsim : simulateBackwardRematerialization R g initOp t = .ok (plan, c))
    (hseed : g.ops[initOp]? = some seedOp) :
    ∀ v e, (v, e) ∈ plan.toConvert → ConeReach R g seedOp t v e := by
  unfold simulateBackwardRematerialization at hsim
  split at hsim
  · simp at hsim
  · rename_i op hseed'
    rw [hseed] at hseed'
    obtain rfl : seedOp = op := by simpa using hseed'
    split at hsim
    · simp at hsim
    · rename_i work0 tc0 hpush
      split at hsim
      · simp at hsim
      · rename_i st hloop
        simp only [Except.ok.injEq, Prod.mk.injEq] at hsim
        obtain ⟨rfl, -⟩ := hsim
        obtain ⟨hw0, htc0⟩ :=
          pushOperands_pred (ConeReach R g seedOp t) seedOp.operands t [] []
            work0 tc0 hpush (by simp) (by simp)
            (fun u hu => ConeReach.seedOperand u hu)
        intro v e hv
        exact simLoop_pred (ConeReach R g seedOp t) R g
          (fun v₁ e₁ d dOp e' o hP hdef hexp hinv ho =>
            ConeReach.step v₁ e₁ d dOp e' o hP hdef hexp hinv ho)
          (simFuel g) work0 _ st hloop htc0 hw0 (v, e) hv

/-- C5 (code bug in the header): the declaration of
`simulateBackwardRematerialization` at Utility.h lines 21–24 takes exactly
five parameters and no `skipInit` flag, although the header's own comment on
lines 19–20 documents `skipInit` semantics for it. -/
theorem claim5_no_skipInit_parameter :
    simulateBackwardRematerializationDecl.params.contains "skipInit" = false ∧
      simulateBackwardRematerializationDecl.params.length = 5 :=
  ⟨rfl, rfl⟩

/-- C6: after `fixupLoops` succeeds on a module, every loop's entry
block-argument types equal the types of the corresponding back-edge
operands, and any conversion it inserted was inserted at the back-edge,
never at the loop entry: the entry-argument types of every loop are exactly
those of the input module. -/
theorem claim6_fixup_closes_loop_invariant (m m' : List LoopInfo) (n : Nat)
    (h : fixupLoops m = some (m', n)) :
    (∀ l ∈ m', l.argTypes = l.yieldTypes) ∧
      m'.map LoopInfo.argTypes = m.map LoopInfo.argTypes :=
  fixupLoops_ok m m' n h

/-- C7: `fixupLoops` is idempotent — run on the output of a successful run
it succeeds, returns the module unchanged, and inserts no conversions. -/
theorem claim7_fixup_idempotent (m m' : List LoopInfo) (n : Nat)
    (h : fixupLoops m = some (m', n)) :
    fixupLoops m' = some (m', 0) :=
  fixupLoops_self m' (fixupLoops_ok m m' n h).1

/-- C8: `canMoveOutOfLoop` succeeds exactly when the same conversion (same
target encoding) is applied to the argument's initial value on loop entry
and the conversion commutes with every operation between the argument's use
and the yield; in particular it fails whenever some such operation kind has
no established commutation. -/
theorem claim8_canMoveOutOfLoop_characterization (R : Registry)
    (q : LoopConvQuery) :
    (∃ cvts, canMoveOutOfLoop R q = .ok cvts) ↔
      (q.entryConversion = some q.targetEncoding ∧
        ∀ k ∈ q.bodyKinds,
          (R k).commutesWithConversion q.targetEncoding = true) := by
  unfold canMoveOutOfLoop
  by_cases hentry : q.entryConversion = some q.targetEncoding
  · rw [if_pos hentry]
    cases hc : checkCommutation R q.targetEncoding q.bodyKinds with
    | ok u =>
      cases u
      constructor
      · intro _
        exact ⟨hentry, (checkCommutation_ok R q.targetEncoding q.bodyKinds).mp hc⟩
      · intro _
        exact ⟨q.cvts, rfl⟩
    | error err =>
      constructor
      · rintro ⟨cvts, hcvts⟩
        simp at hcvts
      · rintro ⟨-, hall⟩
        have hok := (checkCommutation_ok R q.targetEncoding q.bodyKinds).mpr hall
        rw [hc] at hok
        simp at hok
  · rw [if_neg hentry]
    constructor
    · rintro ⟨cvts, hcvts⟩
      simp at hcvts
    · rintro ⟨he, -⟩
      exact absurd he hentry

/-- C9: `rematerializeConversionChain` has no failure channel — it is
declared returning `void` (Utility.h lines 29–32), and the modelled
application phase produces exactly one result for every plan it is applied
to, so all failure detection happens during the planning phase. -/
theorem claim9_rematerialize_total :
    rematerializeConversionChainDecl.returnType = "void" ∧
      ∀ (R : Registry) (g : Graph) (tc : List (Value × Encoding))
        (processed : List Nat) (mapping : List (Value × Value)),
        ∃! r, rematerializeConversionChain R g tc processed mapping = r :=
  ⟨rfl, fun R g tc processed mapping =>
    ⟨rematerializeConversionChain R g tc processed mapping, rfl,
      fun _ hr => hr.symm⟩⟩

/-- C10: `invertEncoding` is analysis-only — the state-threaded embedding
returns the graph unchanged, and its only outputs are the success/failure
signal together with the inverted encoding. -/
theorem claim10_invertEncoding_analysis_only (R : Registry) (g : Graph)
    (t : Encoding) (i : Nat) :
    (invertEncodingOnGraph R g t i).1 = g ∧
      (invertEncodingOnGraph R g t i).2 =
        g.ops[i]?.bind (fun op => invertEncoding R t op) :=
  ⟨rfl, rfl⟩

/-! Witnesses instantiating the claim theorems at concrete inputs. -/

/-- Witness for C1: on `exG` the simulation from seed 0 with target encoding
5 succeeds with cost 1, which equals the plan size and the number of clones
created by the chain rematerializer. -/
theorem claim1_witness :
    (1 : Nat) = exPlan.processed.length ∧
      (rematerializeConversionChain exReg exG exPlan.toConvert
          exPlan.processed []).2.2.length = exPlan.processed.length :=
  claim1_cost_consistency exReg exG 0 5 exPlan 1 rfl

/-- Witness for C2: on `exGFail` the simulation fails at the region boundary
and the driver returns the graph unchanged. -/
theorem claim2_witness :
    applyBackwardRematerialization exReg exGFail 0 3 = exGFail :=
  claim2_failure_leaves_graph_unchanged exReg exGFail 0 3
    RematError.blockArgBoundary rfl

/-- Witness for C3: with the operand of `exOp0` already recorded at encoding
1 while encoding 0 is now required, the loop fails with a conflict. -/
theorem claim3_witness :
    simLoop exReg exG 1 [(Value.opResult 0 0, 0)] exStConflict =
      .error RematError.conflict :=
  claim3_conflict_fails exReg exG 0 (Value.opResult 0 0) 0 [] exStConflict
    0 exOp0 0 (Value.opResult 1 0) 1 rfl rfl rfl (by decide) rfl (by decide)

/-- Witness for C4: the single `toConvert` entry of the plan computed on
`exG` is reachable from the seed without crossing an expensive operation. -/
theorem claim4_witness :
    ConeReach exReg exG exOp0 5 (Value.opResult 1 0) 5 :=
  claim4_no_false_cones exReg exG 0 5 exPlan 1 exOp0 rfl rfl
    (Value.opResult 1 0) 5 (by decide)

/-- Witness for C6: repairing `exLoop` closes the loop invariant and leaves
the entry-argument types untouched. -/
theorem claim6_witness :
    exLoopFixed.argTypes = exLoopFixed.yieldTypes ∧
      [exLoopFixed].map LoopInfo.argTypes = [exLoop].map LoopInfo.argTypes :=
  ⟨(claim6_fixup_closes_loop_invariant [exLoop] [exLoopFixed] 1 rfl).1
      exLoopFixed (by decide),
    (claim6_fixup_closes_loop_invariant [exLoop] [exLoopFixed] 1 rfl).2⟩

/-- Witness for C7: re-running `fixupLoops` on the repaired module is a
no-op. -/
theorem claim7_witness :
    fixupLoops [exLoopFixed] = some ([exLoopFixed], 0) :=
  claim7_fixup_idempotent [exLoop] [exLoopFixed] 1 rfl
